import Mathlib

/-!
Verification of the `TreeSet` ordered-set implementation (src/treeset.h).

The C++ class `TreeSet<T, Compare>` stores values in an unbalanced binary
search tree of reference-counted nodes.  We embed the tree shape as an
inductive type, each mutating member function as a pure function from the
old state to the new state (together with its boolean result), and the
stack-based in-order iterator `TreeSetIter` as an explicit machine.
C++ `value == n->value` comparisons become decidable equality on the
element type; the comparator `_cmp` becomes a boolean relation `cmp`.
-/

namespace TreeSetSpec

/-- The node structure of `TreeSet`: a value plus two (possibly null)
child links.  `nil` stands for an empty `std::shared_ptr<node>`. -/
inductive Tree (α : Type) where
  | nil : Tree α
  | node (left : Tree α) (value : α) (right : Tree α) : Tree α
deriving DecidableEq, Repr

namespace Tree

/-- Number of nodes reachable from this link. -/
def size : Tree α → Nat
  | nil => 0
  | node l _ r => l.size + 1 + r.size

/-- The in-order sequence of values of a subtree (left, value, right). -/
def inorder : Tree α → List α
  | nil => []
  | node l x r => inorder l ++ x :: inorder r

end Tree

section Ops

variable {α : Type} [DecidableEq α] (cmp : α → α → Bool)

/-- The body of the `while` loop of `TreeSet::add` (lines 473-495): walk
from `n`; at each node, `value == n->value` fails (`none`), `_cmp(value,
n->value)` goes left (attaching a fresh leaf when `n->left` is null),
otherwise right.  `some` carries the updated subtree after a successful
attach; `none` reports the duplicate. -/
def addNode (v : α) : Tree α → Option (Tree α)
  | Tree.nil => none
  | Tree.node l x r =>
    if v = x then none
    else if cmp v x then
      match l with
      | Tree.nil => some (Tree.node (Tree.node Tree.nil v Tree.nil) x r)
      | _ => (addNode v l).map (fun lt => Tree.node lt x r)
    else
      match r with
      | Tree.nil => some (Tree.node l x (Tree.node Tree.nil v Tree.nil))
      | _ => (addNode v r).map (fun rt => Tree.node l x rt)

/-- The search loop of `TreeSet::contains` (lines 507-517). -/
def containsNode (v : α) : Tree α → Bool
  | Tree.nil => false
  | Tree.node l x r =>
    if v = x then true
    else if cmp v x then containsNode v l
    else containsNode v r

/-- The `while (n->left != nullptr)` descent of `TreeSet::merge`
(lines 451-456): walk `big`'s left spine to the leftmost node and set its
null left link to `small`. -/
def attachLeft (small : Tree α) : Tree α → Tree α
  | Tree.nil => small
  | Tree.node l x r => Tree.node (attachLeft small l) x r

/-- `TreeSet::merge` (lines 442-458): null `small` yields `big`, null
`big` yields `small`, otherwise `small` is attached under `big`'s
leftmost node and `big` is returned. -/
def merge (small big : Tree α) : Tree α :=
  match small with
  | Tree.nil => big
  | _ =>
    match big with
    | Tree.nil => small
    | _ => attachLeft small big

/-- The body of the `while` loop of `TreeSet::del` (lines 532-554): find
the node holding `value` (by `==`), replace it by the merge of its
children (through `_root` or `parent->replace_child`).  `none` means the
value was not found and nothing changed. -/
def delNode (v : α) : Tree α → Option (Tree α)
  | Tree.nil => none
  | Tree.node l x r =>
    if v = x then some (merge l r)
    else if cmp v x then (delNode v l).map (fun lt => Tree.node lt x r)
    else (delNode v r).map (fun rt => Tree.node l x rt)

/-- `TreeSet::sanity_check(n, minval, maxval)` (lines 406-419).  The
bounds violation at `n` itself is only printed to `cerr`; the returned
boolean is `_cmp(minval, maxval)` at null links and the conjunction of
the two recursive calls with narrowed intervals otherwise. -/
def sanity_check : Tree α → α → α → Bool
  | Tree.nil, minval, maxval => cmp minval maxval
  | Tree.node l x r, minval, maxval =>
    sanity_check l minval x && sanity_check r x maxval

/-- `TreeSet::sanity_check(n)` (lines 421-440) for a `T` whose
`std::numeric_limits` is specialized: start from the type's `min()` and
`max()` sentinels, swapping them when `_cmp(minval, maxval)` fails, then
run the recursive check. -/
def sanity_check_root (minval maxval : α) (t : Tree α) : Bool :=
  if cmp minval maxval then sanity_check cmp t minval maxval
  else sanity_check cmp t maxval minval

end Ops

/-- The `TreeSet` object state: `_root` and `_size` (`int _size`, hence
`Int`).  The comparator is a type-level parameter of the member
functions, as `Compare` is in C++. -/
structure TreeSet (α : Type) where
  root : Tree α
  size : Int
deriving DecidableEq, Repr

namespace TreeSet

variable {α : Type} [DecidableEq α] (cmp : α → α → Bool)

/-- The default constructor: `_root(nullptr), _size(0)`. -/
def empty : TreeSet α := ⟨Tree.nil, 0⟩

/-- `TreeSet::add` (lines 460-500): an empty set (by `size() == 0`) gets
the new value as its root with `_size = 1`; otherwise the insertion walk
runs and `_size` is incremented exactly on a successful attach.  Returns
the new state together with the boolean result. -/
def add (s : TreeSet α) (v : α) : TreeSet α × Bool :=
  if s.size = 0 then (⟨Tree.node Tree.nil v Tree.nil, 1⟩, true)
  else
    match addNode cmp v s.root with
    | some t => (⟨t, s.size + 1⟩, true)
    | none => (s, false)

/-- `TreeSet::contains` (lines 502-520). -/
def contains (s : TreeSet α) (v : α) : Bool :=
  if s.size = 0 then false else containsNode cmp v s.root

/-- `TreeSet::del` (lines 522-559): `_size` is decremented exactly when
the value is found and its node replaced by the merge of its children. -/
def del (s : TreeSet α) (v : α) : TreeSet α × Bool :=
  if s.size = 0 then (s, false)
  else
    match delNode cmp v s.root with
    | some t => (⟨t, s.size - 1⟩, true)
    | none => (s, false)

end TreeSet

/-- A non-null node pointer as held by the iterator: the pointed-to
node's value and child links. -/
structure NodeRef (α : Type) where
  value : α
  left : Tree α
  right : Tree α
deriving DecidableEq, Repr

/-- The `TreeSetIter` state: `_next_node_stack` (head = top) and
`_current_node` (`none` = null, the end sentinel). -/
structure TreeIter (α : Type) where
  stack : List (NodeRef α)
  current : Option (NodeRef α)
deriving DecidableEq, Repr

namespace TreeIter

variable {α : Type}

/-- The `while (n != nullptr)` loop of
`inorder_traverse_to_leftmost_node` (lines 188-191): push every node on
the path from `n` down its left spine. -/
def pushLeft : Tree α → List (NodeRef α) → List (NodeRef α)
  | Tree.nil, st => st
  | Tree.node l x r, st => pushLeft l (⟨x, l, r⟩ :: st)

/-- `inorder_traverse_to_leftmost_node` (lines 182-199): push the left
spine of `n` onto the existing stack, then pop the top as the current
node (or become the end sentinel when the stack is empty). -/
def toLeftmost (st : List (NodeRef α)) (n : Tree α) : TreeIter α :=
  match pushLeft n st with
  | [] => ⟨[], none⟩
  | top :: rest => ⟨rest, some top⟩

/-- `TreeSet::begin` (lines 297-300): an iterator built from the root. -/
def begin (root : Tree α) : TreeIter α := toLeftmost [] root

/-- `operator++` (lines 201-207): a no-op at the end sentinel, otherwise
re-run the leftmost descent from the current node's right child. -/
def next (it : TreeIter α) : TreeIter α :=
  match it.current with
  | none => it
  | some c => toLeftmost it.stack c.right

/-- Weight of a stack entry: the node itself plus its not-yet-visited
right subtree (its left subtree was consumed before it was pushed). -/
def refWeight (n : NodeRef α) : Nat := 1 + n.right.size

/-- Total weight of a stack. -/
def stackWeight (st : List (NodeRef α)) : Nat := (st.map refWeight).sum

/-- Remaining-output measure of an iterator. -/
def weight (it : TreeIter α) : Nat :=
  stackWeight it.stack + (match it.current with
    | none => 0
    | some c => refWeight c)

theorem stackWeight_pushLeft (t : Tree α) (st : List (NodeRef α)) :
    stackWeight (pushLeft t st) = t.size + stackWeight st := by
  induction t generalizing st with
  | nil => simp [pushLeft, Tree.size]
  | node l x r ihl ihr =>
    simp only [pushLeft, Tree.size]
    rw [ihl]
    simp [stackWeight, refWeight]
    omega

theorem weight_toLeftmost (st : List (NodeRef α)) (n : Tree α) :
    weight (toLeftmost st n) = n.size + stackWeight st := by
  unfold toLeftmost
  have h := stackWeight_pushLeft n st
  cases hp : pushLeft n st with
  | nil => simp [weight, stackWeight, hp] at h ⊢; omega
  | cons top rest =>
    rw [hp] at h
    simp [weight, stackWeight, refWeight] at h ⊢
    omega

/-- The values produced by repeatedly dereferencing (`operator*`, which
reads `_current_node->value`) and incrementing the iterator until it
compares equal to the end sentinel (null current node). -/
def toList (it : TreeIter α) : List α :=
  match h : it.current with
  | none => []
  | some c => c.value :: toList (toLeftmost it.stack c.right)
termination_by weight it
decreasing_by
  rw [weight_toLeftmost]
  simp [weight, h, refWeight]
  omega

end TreeIter

/-- The list of values the iterator yields from `begin()` to `end()`. -/
def TreeSet.yield {α : Type} (s : TreeSet α) : List α :=
  TreeIter.toList (TreeIter.begin s.root)

/-- The contract the spec places on `Compare` (a strict weak ordering),
specialised to the tested instantiations (`std::less` / `std::greater`
over `int` and `std::string`), where comparator-equivalence coincides
with `operator==`: a strict total order compatible with equality. -/
structure LtSpec {α : Type} (cmp : α → α → Bool) : Prop where
  irrefl : ∀ a, cmp a a = false
  asymm : ∀ a b, cmp a b = true → cmp b a = false
  trans : ∀ a b c, cmp a b = true → cmp b c = true → cmp a c = true
  total : ∀ a b, a ≠ b → cmp a b = true ∨ cmp b a = true

/-- The binary-search-tree ordering invariant relative to `cmp`: every
value in a left subtree compares strictly below the node's value and
every value in a right subtree strictly above. -/
inductive BST {α : Type} (cmp : α → α → Bool) : Tree α → Prop where
  | nil : BST cmp Tree.nil
  | node {l r : Tree α} {x : α} :
      BST cmp l → BST cmp r →
      (∀ y ∈ l.inorder, cmp y x = true) →
      (∀ y ∈ r.inorder, cmp x y = true) →
      BST cmp (Tree.node l x r)

section InvariantLemmas

variable {α : Type} [DecidableEq α] {cmp : α → α → Bool}

theorem inorder_eq_nil {t : Tree α} : t.inorder = [] ↔ t = Tree.nil := by
  cases t with
  | nil => simp [Tree.inorder]
  | node l x r => simp [Tree.inorder]

/-- The in-order sequence of a BST is strictly increasing (pairwise)
under the comparator. -/
theorem BST.pairwise (hs : LtSpec cmp) {t : Tree α} (h : BST cmp t) :
    List.Pairwise (fun a b => cmp a b = true) t.inorder := by
  induction h with
  | nil => simp [Tree.inorder]
  | node hl hr hbl hbr ihl ihr =>
    rw [Tree.inorder, List.pairwise_append]
    refine ⟨ihl, ?_, ?_⟩
    · exact List.pairwise_cons.mpr ⟨hbr, ihr⟩
    · intro a ha b hb
      rcases List.mem_cons.mp hb with hb | hb
      · exact hb ▸ hbl a ha
      · exact hs.trans _ _ _ (hbl a ha) (hbr b hb)

/-- A strictly increasing sequence has no duplicates. -/
theorem pairwise_nodup (hs : LtSpec cmp) {l : List α}
    (h : List.Pairwise (fun a b => cmp a b = true) l) : l.Nodup := by
  refine h.imp ?_
  intro a b hab heq
  subst heq
  rw [hs.irrefl a] at hab
  exact Bool.false_ne_true hab

/-- Two strictly increasing sequences with the same members are equal. -/
theorem pairwise_ext (hs : LtSpec cmp) :
    ∀ {l₁ l₂ : List α}, List.Pairwise (fun a b => cmp a b = true) l₁ →
    List.Pairwise (fun a b => cmp a b = true) l₂ →
    (∀ y, y ∈ l₁ ↔ y ∈ l₂) → l₁ = l₂ := by
  intro l₁
  induction l₁ with
  | nil =>
    intro l₂ _ _ hmem
    cases l₂ with
    | nil => rfl
    | cons y ys => exact absurd ((hmem y).mpr (List.mem_cons_self y ys)) (by simp)
  | cons x xs ih =>
    intro l₂ h₁ h₂ hmem
    cases l₂ with
    | nil => exact absurd ((hmem x).mp (List.mem_cons_self x xs)) (by simp)
    | cons y ys =>
      obtain ⟨hx₁, hp₁⟩ := List.pairwise_cons.mp h₁
      obtain ⟨hy₂, hp₂⟩ := List.pairwise_cons.mp h₂
      have hxy : x = y := by
        by_contra hne
        have hxmem : x ∈ y :: ys := (hmem x).mp (List.mem_cons_self x xs)
        have hymem : y ∈ x :: xs := (hmem y).mpr (List.mem_cons_self y ys)
        rcases List.mem_cons.mp hxmem with h | h
        · exact hne h
        · rcases List.mem_cons.mp hymem with h2 | h2
          · exact hne h2.symm
          · have c1 := hy₂ x h
            have c2 := hx₁ y h2
            have := hs.asymm _ _ c1
            rw [this] at c2
            exact Bool.false_ne_true c2
      subst hxy
      have htail : ∀ y, y ∈ xs ↔ y ∈ ys := by
        intro z
        constructor
        · intro hz
          have hzx : z ≠ x := by
            intro heq
            have := hx₁ z hz
            rw [heq, hs.irrefl x] at this
            exact Bool.false_ne_true this
          have : z ∈ x :: ys := (hmem z).mp (List.mem_cons_of_mem x hz)
          rcases List.mem_cons.mp this with h | h
          · exact absurd h hzx
          · exact h
        · intro hz
          have hzx : z ≠ x := by
            intro heq
            have := hy₂ z hz
            rw [heq, hs.irrefl x] at this
            exact Bool.false_ne_true this
          have : z ∈ x :: xs := (hmem z).mpr (List.mem_cons_of_mem x hz)
          rcases List.mem_cons.mp this with h | h
          · exact absurd h hzx
          · exact h
      rw [ih hp₁ hp₂ htail]

theorem containsNode_found {v x : α} {l r : Tree α} (hvx : v = x) :
    containsNode cmp v (Tree.node l x r) = true := by
  simp [containsNode, hvx]

theorem containsNode_left {v x : α} {l r : Tree α} (hvx : ¬ v = x)
    (hlt : cmp v x = true) :
    containsNode cmp v (Tree.node l x r) = containsNode cmp v l := by
  simp [containsNode, hvx, hlt]

theorem containsNode_right {v x : α} {l r : Tree α} (hvx : ¬ v = x)
    (hlt : ¬ cmp v x = true) :
    containsNode cmp v (Tree.node l x r) = containsNode cmp v r := by
  simp [containsNode, hvx, hlt]

theorem addNode_found {v x : α} {l r : Tree α} (hvx : v = x) :
    addNode cmp v (Tree.node l x r) = none := by
  simp [addNode, hvx]

theorem addNode_left_leaf {v x : α} {r : Tree α} (hvx : ¬ v = x)
    (hlt : cmp v x = true) :
    addNode cmp v (Tree.node Tree.nil x r) =
      some (Tree.node (Tree.node Tree.nil v Tree.nil) x r) := by
  simp [addNode, hvx, hlt]

theorem addNode_left_rec {v x : α} {l r : Tree α} (hvx : ¬ v = x)
    (hlt : cmp v x = true) (hl : l ≠ Tree.nil) :
    addNode cmp v (Tree.node l x r) =
      (addNode cmp v l).map (fun lt => Tree.node lt x r) := by
  cases l with
  | nil => exact absurd rfl hl
  | node ll lx lr => simp [addNode, hvx, hlt]

theorem addNode_right_leaf {v x : α} {l : Tree α} (hvx : ¬ v = x)
    (hlt : ¬ cmp v x = true) :
    addNode cmp v (Tree.node l x Tree.nil) =
      some (Tree.node l x (Tree.node Tree.nil v Tree.nil)) := by
  simp [addNode, hvx, hlt]

theorem addNode_right_rec {v x : α} {l r : Tree α} (hvx : ¬ v = x)
    (hlt : ¬ cmp v x = true) (hr : r ≠ Tree.nil) :
    addNode cmp v (Tree.node l x r) =
      (addNode cmp v r).map (fun rt => Tree.node l x rt) := by
  cases r with
  | nil => exact absurd rfl hr
  | node rl rx rr => simp [addNode, hvx, hlt]

theorem delNode_found {v x : α} {l r : Tree α} (hvx : v = x) :
    delNode cmp v (Tree.node l x r) = some (merge l r) := by
  simp [delNode, hvx]

theorem delNode_left {v x : α} {l r : Tree α} (hvx : ¬ v = x)
    (hlt : cmp v x = true) :
    delNode cmp v (Tree.node l x r) =
      (delNode cmp v l).map (fun lt => Tree.node lt x r) := by
  simp [delNode, hvx, hlt]

theorem delNode_right {v x : α} {l r : Tree α} (hvx : ¬ v = x)
    (hlt : ¬ cmp v x = true) :
    delNode cmp v (Tree.node l x r) =
      (delNode cmp v r).map (fun rt => Tree.node l x rt) := by
  simp [delNode, hvx, hlt]

/-- The `add` walk reports a duplicate (returns `false` without
inserting) exactly when the `contains` walk finds the value, for the
non-null roots the walk is actually started from. -/
theorem addNode_none_iff (v : α) :
    ∀ t : Tree α, t ≠ Tree.nil →
    (addNode cmp v t = none ↔ containsNode cmp v t = true) := by
  intro t
  induction t with
  | nil => intro h; exact absurd rfl h
  | node l x r ihl ihr =>
    intro _
    by_cases hvx : v = x
    · simp [addNode_found hvx, containsNode_found hvx]
    · by_cases hlt : cmp v x = true
      · cases l with
        | nil =>
          rw [addNode_left_leaf hvx hlt, containsNode_left hvx hlt]
          simp [containsNode]
        | node ll lx lr =>
          rw [addNode_left_rec hvx hlt (by simp), containsNode_left hvx hlt,
            Option.map_eq_none']
          exact ihl (by simp)
      · cases r with
        | nil =>
          rw [addNode_right_leaf hvx hlt, containsNode_right hvx hlt]
          simp [containsNode]
        | node rl rx rr =>
          rw [addNode_right_rec hvx hlt (by simp), containsNode_right hvx hlt,
            Option.map_eq_none']
          exact ihr (by simp)

theorem containsNode_iff_mem (hs : LtSpec cmp) (v : α) :
    ∀ t : Tree α, BST cmp t → (containsNode cmp v t = true ↔ v ∈ t.inorder) := by
  intro t
  induction t with
  | nil => intro _; simp [containsNode, Tree.inorder]
  | node l x r ihl ihr =>
    intro hb
    cases hb with
    | node hbl hbr hlo hhi =>
      by_cases hvx : v = x
      · simp [containsNode, hvx, Tree.inorder]
      · by_cases hlt : cmp v x = true
        · have hnr : v ∉ r.inorder := by
            intro hvr
            have := hhi v hvr
            rw [hs.asymm v x hlt] at this
            exact Bool.false_ne_true this
          simp only [containsNode, if_neg hvx, if_pos hlt, ihl hbl,
            Tree.inorder, List.mem_append, List.mem_cons]
          tauto
        · have hgt : cmp x v = true := by
            rcases hs.total v x hvx with h | h
            · exact absurd h hlt
            · exact h
          have hnl : v ∉ l.inorder := by
            intro hvl
            have := hlo v hvl
            rw [hs.asymm x v hgt] at this
            exact Bool.false_ne_true this
          simp only [containsNode, if_neg hvx, if_neg hlt, ihr hbr,
            Tree.inorder, List.mem_append, List.mem_cons]
          tauto

theorem addNode_some (hs : LtSpec cmp) (v : α) :
    ∀ (t t' : Tree α), BST cmp t → addNode cmp v t = some t' →
    BST cmp t' ∧ (∀ y, y ∈ t'.inorder ↔ y = v ∨ y ∈ t.inorder) ∧
    t'.inorder.length = t.inorder.length + 1 := by
  intro t
  induction t with
  | nil => intro t' _ h; simp [addNode] at h
  | node l x r ihl ihr =>
    intro t' hb h
    cases hb with
    | node hbl hbr hlo hhi =>
      by_cases hvx : v = x
      · rw [addNode_found hvx] at h
        exact absurd h (by simp)
      · by_cases hlt : cmp v x = true
        · cases l with
          | nil =>
            rw [addNode_left_leaf hvx hlt, Option.some_inj] at h
            subst h
            refine ⟨?_, ?_, ?_⟩
            · refine BST.node ?_ hbr ?_ hhi
              · exact BST.node BST.nil BST.nil (by simp [Tree.inorder])
                  (by simp [Tree.inorder])
              · intro y hy
                simp [Tree.inorder] at hy
                subst hy
                exact hlt
            · intro y
              simp [Tree.inorder]
              try tauto
            · simp [Tree.inorder]
          | node ll lx lr =>
            rw [addNode_left_rec hvx hlt (by simp), Option.map_eq_some'] at h
            obtain ⟨lt, hlt2, rfl⟩ := h
            obtain ⟨hbst, hmem, hlen⟩ := ihl lt hbl hlt2
            refine ⟨?_, ?_, ?_⟩
            · refine BST.node hbst hbr ?_ hhi
              intro y hy
              rcases (hmem y).mp hy with rfl | hy2
              · exact hlt
              · exact hlo y hy2
            · intro y
              simp only [Tree.inorder, List.mem_append, List.mem_cons, hmem y]
              tauto
            · simp only [Tree.inorder, List.length_append,
                List.length_cons] at hlen ⊢
              omega
        · have hgt : cmp x v = true := by
            rcases hs.total v x hvx with h2 | h2
            · exact absurd h2 hlt
            · exact h2
          cases r with
          | nil =>
            rw [addNode_right_leaf hvx hlt, Option.some_inj] at h
            subst h
            refine ⟨?_, ?_, ?_⟩
            · refine BST.node hbl ?_ hlo ?_
              · exact BST.node BST.nil BST.nil (by simp [Tree.inorder])
                  (by simp [Tree.inorder])
              · intro y hy
                simp [Tree.inorder] at hy
                subst hy
                exact hgt
            · intro y
              simp [Tree.inorder]
              try tauto
            · simp [Tree.inorder]
          | node rl rx rr =>
            rw [addNode_right_rec hvx hlt (by simp), Option.map_eq_some'] at h
            obtain ⟨rt, hrt2, rfl⟩ := h
            obtain ⟨hbst, hmem, hlen⟩ := ihr rt hbr hrt2
            refine ⟨?_, ?_, ?_⟩
            · refine BST.node hbl hbst hlo ?_
              intro y hy
              rcases (hmem y).mp hy with rfl | hy2
              · exact hgt
              · exact hhi y hy2
            · intro y
              simp only [Tree.inorder, List.mem_append, List.mem_cons, hmem y]
              tauto
            · simp only [Tree.inorder, List.length_append,
                List.length_cons] at hlen ⊢
              omega

theorem inorder_attachLeft (s : Tree α) :
    ∀ b : Tree α, (attachLeft s b).inorder = s.inorder ++ b.inorder := by
  intro b
  induction b with
  | nil => simp [attachLeft, Tree.inorder]
  | node l x r ihl ihr => simp [attachLeft, Tree.inorder, ihl]

theorem inorder_merge (s b : Tree α) :
    (merge s b).inorder = s.inorder ++ b.inorder := by
  cases s with
  | nil => simp [merge, Tree.inorder]
  | node sl sx sr =>
    cases b with
    | nil => simp [merge, Tree.inorder]
    | node bl bx br => simp [merge, inorder_attachLeft]

theorem BST.attachLeft_bst {s : Tree α} (hsmall : BST cmp s) :
    ∀ {b : Tree α}, BST cmp b →
    (∀ y ∈ s.inorder, ∀ z ∈ b.inorder, cmp y z = true) →
    BST cmp (attachLeft s b) := by
  intro b hb
  induction hb with
  | nil => intro _; exact hsmall
  | @node bl br bx hbl hbr hlo hhi ihl ihr =>
    intro hcross
    refine BST.node (ihl ?_) hbr ?_ hhi
    · intro y hy z hz
      exact hcross y hy z (by simp [Tree.inorder]; exact Or.inl hz)
    · intro y hy
      rw [inorder_attachLeft] at hy
      rcases List.mem_append.mp hy with hy | hy
      · exact hcross y hy bx (by simp [Tree.inorder])
      · exact hlo y hy

theorem BST.merge_bst {s b : Tree α} (hsmall : BST cmp s) (hbig : BST cmp b)
    (hcross : ∀ y ∈ s.inorder, ∀ z ∈ b.inorder, cmp y z = true) :
    BST cmp (merge s b) := by
  cases s with
  | nil => exact hbig
  | node sl sx sr =>
    cases b with
    | nil => exact hsmall
    | node bl bx br => exact BST.attachLeft_bst hsmall hbig hcross

theorem delNode_none_iff (v : α) :
    ∀ t : Tree α, delNode cmp v t = none ↔ containsNode cmp v t = false := by
  intro t
  induction t with
  | nil => simp [delNode, containsNode]
  | node l x r ihl ihr =>
    by_cases hvx : v = x
    · simp [delNode_found hvx, containsNode_found hvx]
    · by_cases hlt : cmp v x = true
      · rw [delNode_left hvx hlt, containsNode_left hvx hlt,
          Option.map_eq_none']
        exact ihl
      · rw [delNode_right hvx hlt, containsNode_right hvx hlt,
          Option.map_eq_none']
        exact ihr

theorem delNode_some (hs : LtSpec cmp) (v : α) :
    ∀ (t t' : Tree α), BST cmp t → delNode cmp v t = some t' →
    BST cmp t' ∧ (∀ y, y ∈ t'.inorder ↔ y ∈ t.inorder ∧ y ≠ v) ∧
    t'.inorder.length + 1 = t.inorder.length := by
  intro t
  induction t with
  | nil => intro t' _ h; simp [delNode] at h
  | node l x r ihl ihr =>
    intro t' hb h
    cases hb with
    | node hbl hbr hlo hhi =>
      by_cases hvx : v = x
      · rw [delNode_found hvx, Option.some_inj] at h
        subst h
        refine ⟨?_, ?_, ?_⟩
        · refine BST.merge_bst hbl hbr ?_
          intro y hy z hz
          exact hs.trans y x z (hlo y hy) (hhi z hz)
        · intro y
          have hyl : y ∈ l.inorder → y ≠ v := by
            intro hy heq
            have h1 := hlo y hy
            rw [heq, hvx, hs.irrefl x] at h1
            exact Bool.false_ne_true h1
          have hyr : y ∈ r.inorder → y ≠ v := by
            intro hy heq
            have h1 := hhi y hy
            rw [heq, hvx, hs.irrefl x] at h1
            exact Bool.false_ne_true h1
          rw [inorder_merge]
          simp only [Tree.inorder, List.mem_append, List.mem_cons]
          constructor
          · rintro (hy | hy)
            · exact ⟨Or.inl hy, hyl hy⟩
            · exact ⟨Or.inr (Or.inr hy), hyr hy⟩
          · rintro ⟨hy | rfl | hy, hne⟩
            · exact Or.inl hy
            · exact absurd hvx.symm hne
            · exact Or.inr hy
        · rw [inorder_merge]
          simp only [Tree.inorder, List.length_append, List.length_cons]
          omega
      · by_cases hlt : cmp v x = true
        · rw [delNode_left hvx hlt, Option.map_eq_some'] at h
          obtain ⟨lt, hlt2, rfl⟩ := h
          obtain ⟨hbst, hmem, hlen⟩ := ihl lt hbl hlt2
          have hxv : x ≠ v := fun heq => hvx heq.symm
          have hrv : ∀ y ∈ r.inorder, y ≠ v := by
            intro y hy heq
            have h1 := hhi y hy
            have h2 := hs.trans v x y hlt h1
            rw [heq, hs.irrefl v] at h2
            exact Bool.false_ne_true h2
          refine ⟨?_, ?_, ?_⟩
          · refine BST.node hbst hbr ?_ hhi
            intro y hy
            exact hlo y ((hmem y).mp hy).1
          · intro y
            simp only [Tree.inorder, List.mem_append, List.mem_cons, hmem y]
            constructor
            · rintro (⟨hy, hne⟩ | rfl | hy)
              · exact ⟨Or.inl hy, hne⟩
              · exact ⟨Or.inr (Or.inl rfl), hxv⟩
              · exact ⟨Or.inr (Or.inr hy), hrv y hy⟩
            · rintro ⟨hy | rfl | hy, hne⟩
              · exact Or.inl ⟨hy, hne⟩
              · exact Or.inr (Or.inl rfl)
              · exact Or.inr (Or.inr hy)
          · simp only [Tree.inorder, List.length_append, List.length_cons] at *
            omega
        · rw [delNode_right hvx hlt, Option.map_eq_some'] at h
          obtain ⟨rt, hrt2, rfl⟩ := h
          obtain ⟨hbst, hmem, hlen⟩ := ihr rt hbr hrt2
          have hxv : x ≠ v := fun heq => hvx heq.symm
          have hlv : ∀ y ∈ l.inorder, y ≠ v := by
            intro y hy heq
            have h1 := hlo y hy
            rw [heq] at h1
            exact hlt h1
          refine ⟨?_, ?_, ?_⟩
          · refine BST.node hbl hbst hlo ?_
            intro y hy
            exact hhi y ((hmem y).mp hy).1
          · intro y
            simp only [Tree.inorder, List.mem_append, List.mem_cons, hmem y]
            constructor
            · rintro (hy | rfl | ⟨hy, hne⟩)
              · exact ⟨Or.inl hy, hlv y hy⟩
              · exact ⟨Or.inr (Or.inl rfl), hxv⟩
              · exact ⟨Or.inr (Or.inr hy), hne⟩
            · rintro ⟨hy | rfl | hy, hne⟩
              · exact Or.inl hy
              · exact Or.inr (Or.inl rfl)
              · exact Or.inr (Or.inr ⟨hy, hne⟩)
          · simp only [Tree.inorder, List.length_append, List.length_cons] at *
            omega

end InvariantLemmas

/-- The representation invariant of a `TreeSet` object: the tree is a
BST for the comparator and `_size` counts its nodes. -/
def Inv {α : Type} (cmp : α → α → Bool) (s : TreeSet α) : Prop :=
  BST cmp s.root ∧ s.size = (s.root.inorder.length : Int)

section SetLemmas

variable {α : Type} [DecidableEq α] {cmp : α → α → Bool}

theorem Inv_empty (c : α → α → Bool) : Inv c (TreeSet.empty (α := α)) :=
  ⟨BST.nil, by simp [TreeSet.empty, Tree.inorder]⟩

theorem root_eq_nil_of_size (hinv : Inv cmp s) (h : s.size = 0) :
    s.root = Tree.nil := by
  have h2 := hinv.2
  rw [h] at h2
  have hlen : s.root.inorder.length = 0 := by exact_mod_cast h2.symm
  rw [← inorder_eq_nil]
  exact List.length_eq_zero.mp hlen

theorem root_ne_nil_of_size (hinv : Inv cmp s) (h : ¬ s.size = 0) :
    s.root ≠ Tree.nil := by
  intro hroot
  apply h
  rw [hinv.2, hroot]
  simp [Tree.inorder]

/-- Full specification of `TreeSet::add`: the invariant is preserved,
the boolean result is `true` exactly when the value was absent, the
members afterward are the old members plus `v`, a `false` result leaves
the object unchanged, and a `true` result grows `_size` by one. -/
theorem add_spec (hs : LtSpec cmp) {s : TreeSet α} (hinv : Inv cmp s) (v : α) :
    Inv cmp (TreeSet.add cmp s v).1 ∧
    ((TreeSet.add cmp s v).2 = true ↔ v ∉ s.root.inorder) ∧
    (∀ y, y ∈ (TreeSet.add cmp s v).1.root.inorder ↔
      y = v ∨ y ∈ s.root.inorder) ∧
    ((TreeSet.add cmp s v).2 = false → (TreeSet.add cmp s v).1 = s) ∧
    ((TreeSet.add cmp s v).2 = true →
      (TreeSet.add cmp s v).1.size = s.size + 1) := by
  by_cases hsz : s.size = 0
  · have hroot := root_eq_nil_of_size hinv hsz
    simp only [TreeSet.add, if_pos hsz]
    refine ⟨⟨?_, ?_⟩, ?_, ?_, ?_, ?_⟩
    · exact BST.node BST.nil BST.nil (by simp [Tree.inorder])
        (by simp [Tree.inorder])
    · simp [Tree.inorder]
    · simp [hroot, Tree.inorder]
    · intro y
      simp [hroot, Tree.inorder]
    · intro h
      simp at h
    · intro _
      rw [hsz]
      rfl
  · have hroot := root_ne_nil_of_size hinv hsz
    simp only [TreeSet.add, if_neg hsz]
    cases haddn : addNode cmp v s.root with
    | none =>
      have hcont : containsNode cmp v s.root = true :=
        (addNode_none_iff v s.root hroot).mp haddn
      have hmem : v ∈ s.root.inorder :=
        (containsNode_iff_mem hs v s.root hinv.1).mp hcont
      simp only []
      refine ⟨hinv, ?_, ?_, ?_, ?_⟩
      · simp [hmem]
      · intro y
        constructor
        · intro hy
          exact Or.inr hy
        · rintro (rfl | hy)
          · exact hmem
          · exact hy
      · intro _
        trivial
      · intro h
        simp at h
    | some t =>
      obtain ⟨hbst, hmem, hlen⟩ := addNode_some hs v s.root t hinv.1 haddn
      have hnone : ¬ addNode cmp v s.root = none := by simp [haddn]
      have hncont : ¬ containsNode cmp v s.root = true := fun hc =>
        hnone ((addNode_none_iff v s.root hroot).mpr hc)
      have hnmem : v ∉ s.root.inorder := fun hm =>
        hncont ((containsNode_iff_mem hs v s.root hinv.1).mpr hm)
      simp only []
      refine ⟨⟨hbst, ?_⟩, ?_, ?_, ?_, ?_⟩
      · have h2 := hinv.2
        rw [hlen]
        push_cast
        omega
      · simp [hnmem]
      · exact hmem
      · intro h
        simp at h
      · intro _
        trivial

/-- `TreeSet::contains` answers exactly membership of the in-order
value sequence. -/
theorem contains_iff (hs : LtSpec cmp) {s : TreeSet α} (hinv : Inv cmp s)
    (v : α) : TreeSet.contains cmp s v = true ↔ v ∈ s.root.inorder := by
  by_cases hsz : s.size = 0
  · have hroot := root_eq_nil_of_size hinv hsz
    simp [TreeSet.contains, hsz, hroot, Tree.inorder]
  · simp only [TreeSet.contains, if_neg hsz]
    exact containsNode_iff_mem hs v s.root hinv.1

/-- Full specification of `TreeSet::del`: the invariant is preserved,
the boolean result equals what `contains` answered before the call, the
members afterward are the old members minus `v`, success shrinks
`_size` by exactly one, and failure leaves the object unchanged. -/
theorem del_spec (hs : LtSpec cmp) {s : TreeSet α} (hinv : Inv cmp s) (v : α) :
    Inv cmp (TreeSet.del cmp s v).1 ∧
    ((TreeSet.del cmp s v).2 = TreeSet.contains cmp s v) ∧
    (∀ y, y ∈ (TreeSet.del cmp s v).1.root.inorder ↔
      y ∈ s.root.inorder ∧ y ≠ v) ∧
    ((TreeSet.del cmp s v).2 = true →
      (TreeSet.del cmp s v).1.size = s.size - 1) ∧
    ((TreeSet.del cmp s v).2 = false → (TreeSet.del cmp s v).1 = s) := by
  by_cases hsz : s.size = 0
  · have hroot := root_eq_nil_of_size hinv hsz
    simp only [TreeSet.del, if_pos hsz]
    refine ⟨hinv, ?_, ?_, ?_, ?_⟩
    · simp [TreeSet.contains, hsz]
    · intro y
      simp [hroot, Tree.inorder]
    · intro h
      simp at h
    · intro _
      trivial
  · simp only [TreeSet.del, if_neg hsz]
    cases hdeln : delNode cmp v s.root with
    | none =>
      have hcont : containsNode cmp v s.root = false :=
        (delNode_none_iff v s.root).mp hdeln
      have hnmem : v ∉ s.root.inorder := by
        intro hm
        have := (containsNode_iff_mem hs v s.root hinv.1).mpr hm
        rw [hcont] at this
        exact Bool.false_ne_true this
      simp only []
      refine ⟨hinv, ?_, ?_, ?_, ?_⟩
      · simp [TreeSet.contains, hsz, hcont]
      · intro y
        constructor
        · intro hy
          refine ⟨hy, ?_⟩
          intro heq
          rw [heq] at hy
          exact hnmem hy
        · intro hy
          exact hy.1
      · intro h
        simp at h
      · intro _
        trivial
    | some t =>
      obtain ⟨hbst, hmem, hlen⟩ := delNode_some hs v s.root t hinv.1 hdeln
      have hnnone : ¬ delNode cmp v s.root = none := by simp [hdeln]
      have hcont : containsNode cmp v s.root = true := by
        cases hc : containsNode cmp v s.root with
        | false => exact absurd ((delNode_none_iff v s.root).mpr hc) hnnone
        | true => rfl
      simp only []
      refine ⟨⟨hbst, ?_⟩, ?_, hmem, ?_, ?_⟩
      · have h2 := hinv.2
        have : s.root.inorder.length = t.inorder.length + 1 := by omega
        rw [this] at h2
        push_cast at h2 ⊢
        omega
      · simp [TreeSet.contains, hsz, hcont]
      · intro _
        trivial
      · intro h
        simp at h

end SetLemmas

section IterCorrect

variable {α : Type}

/-- Denotation of an iterator stack: for each pushed ancestor (top
first), its value followed by its unvisited right subtree. -/
def stackDen : List (NodeRef α) → List α
  | [] => []
  | n :: rest => n.value :: (n.right.inorder ++ stackDen rest)

theorem toList_toLeftmost :
    ∀ (k : Nat) (st : List (NodeRef α)) (n : Tree α),
    TreeIter.stackWeight st + n.size ≤ k →
    TreeIter.toList (TreeIter.toLeftmost st n) = n.inorder ++ stackDen st := by
  intro k
  induction k with
  | zero =>
    intro st n h
    have hst : TreeIter.stackWeight st = 0 := by omega
    have hn : n.size = 0 := by omega
    cases st with
    | cons top rest =>
      simp [TreeIter.stackWeight, TreeIter.refWeight] at hst
    | nil =>
      cases n with
      | node l x r => simp [Tree.size] at hn
      | nil => simp [TreeIter.toLeftmost, TreeIter.pushLeft, TreeIter.toList,
          Tree.inorder, stackDen]
  | succ k ih =>
    intro st n h
    induction n generalizing st with
    | nil =>
      cases st with
      | nil => simp [TreeIter.toLeftmost, TreeIter.pushLeft, TreeIter.toList,
          Tree.inorder, stackDen]
      | cons top rest =>
        have hstep : TreeIter.toLeftmost (top :: rest) (Tree.nil (α := α)) =
            ⟨rest, some top⟩ := by
          simp [TreeIter.toLeftmost, TreeIter.pushLeft]
        rw [hstep, TreeIter.toList]
        simp only []
        have hle : TreeIter.stackWeight rest + top.right.size ≤ k := by
          simp [TreeIter.stackWeight, TreeIter.refWeight, Tree.size] at h ⊢
          omega
        have hr := ih rest top.right hle
        unfold TreeIter.toLeftmost at hr ⊢
        simp only [Tree.inorder, List.nil_append, stackDen]
        rw [hr]
    | node l x r ihl ihr =>
      have hstep : TreeIter.toLeftmost st (Tree.node l x r) =
          TreeIter.toLeftmost (⟨x, l, r⟩ :: st) l := by
        simp [TreeIter.toLeftmost, TreeIter.pushLeft]
      rw [hstep]
      have hle : TreeIter.stackWeight (⟨x, l, r⟩ :: st) + l.size ≤ k + 1 := by
        simp [TreeIter.stackWeight, TreeIter.refWeight, Tree.size] at h ⊢
        omega
      rw [ihl (⟨x, l, r⟩ :: st) hle]
      simp [stackDen, Tree.inorder]

/-- The iterator built by `begin()` yields exactly the in-order
traversal of the tree. -/
theorem toList_begin (t : Tree α) :
    TreeIter.toList (TreeIter.begin t) = t.inorder := by
  have h := toList_toLeftmost (TreeIter.stackWeight ([] : List (NodeRef α)) +
    t.size) [] t le_rfl
  rw [TreeIter.begin, h]
  simp [stackDen]

theorem yield_eq_inorder (s : TreeSet α) : s.yield = s.root.inorder :=
  toList_begin s.root

end IterCorrect

/-- One public mutation: `add(v)` or `del(v)`. -/
inductive Op (α : Type) where
  | add (v : α) : Op α
  | del (v : α) : Op α

section Programs

variable {α : Type} [DecidableEq α] (cmp : α → α → Bool)

/-- Apply one mutation to a set, keeping the new state. -/
def applyOp (s : TreeSet α) : Op α → TreeSet α
  | Op.add v => (TreeSet.add cmp s v).1
  | Op.del v => (TreeSet.del cmp s v).1

/-- Run a sequence of `add`/`del` operations starting from the empty
set (the default-constructed `TreeSet`). -/
def applyOps (ops : List (Op α)) : TreeSet α :=
  ops.foldl (applyOp cmp) TreeSet.empty

/-- The `for (T item : list) add(item);` loop shared by the
initializer-list constructor and the set-algebra builders. -/
def addAll (s : TreeSet α) (l : List α) : TreeSet α :=
  l.foldl (fun acc v => (TreeSet.add cmp acc v).1) s

/-- The initializer-list constructor (lines 235-241): start empty and
`add` each item in order. -/
def TreeSet.ofList (l : List α) : TreeSet α := addAll cmp TreeSet.empty l

end Programs

section ProgramLemmas

variable {α : Type} [DecidableEq α] {cmp : α → α → Bool}

theorem Inv_applyOp (hs : LtSpec cmp) {s : TreeSet α} (hinv : Inv cmp s)
    (op : Op α) : Inv cmp (applyOp cmp s op) := by
  cases op with
  | add v => exact (add_spec hs hinv v).1
  | del v => exact (del_spec hs hinv v).1

theorem Inv_foldl (hs : LtSpec cmp) {s : TreeSet α} (hinv : Inv cmp s)
    (ops : List (Op α)) : Inv cmp (ops.foldl (applyOp cmp) s) := by
  induction ops generalizing s with
  | nil => exact hinv
  | cons op rest ih => exact ih (Inv_applyOp hs hinv op)

/-- Every set reachable through the public mutations satisfies the
representation invariant. -/
theorem Inv_applyOps (hs : LtSpec cmp) (ops : List (Op α)) :
    Inv cmp (applyOps cmp ops) := Inv_foldl hs (Inv_empty cmp) ops

theorem addAll_spec (hs : LtSpec cmp) :
    ∀ (l : List α) {s : TreeSet α}, Inv cmp s →
    Inv cmp (addAll cmp s l) ∧
    (∀ y, y ∈ (addAll cmp s l).root.inorder ↔
      y ∈ s.root.inorder ∨ y ∈ l) := by
  intro l
  induction l with
  | nil =>
    intro s hinv
    refine ⟨hinv, ?_⟩
    intro y
    simp [addAll]
  | cons v vs ih =>
    intro s hinv
    obtain ⟨hinv2, _, hmem2, _⟩ := add_spec hs hinv v
    have hstep : addAll cmp s (v :: vs) =
        addAll cmp (TreeSet.add cmp s v).1 vs := by
      simp [addAll]
    obtain ⟨hinv3, hmem3⟩ := ih hinv2
    rw [hstep]
    refine ⟨hinv3, ?_⟩
    intro y
    rw [hmem3 y, hmem2 y]
    simp [List.mem_cons]
    tauto

theorem Inv_ofList (hs : LtSpec cmp) (l : List α) :
    Inv cmp (TreeSet.ofList cmp l) := (addAll_spec hs l (Inv_empty cmp)).1

theorem ofList_mem (hs : LtSpec cmp) (l : List α) (y : α) :
    y ∈ (TreeSet.ofList cmp l).root.inorder ↔ y ∈ l := by
  rw [TreeSet.ofList, (addAll_spec hs l (Inv_empty cmp)).2 y]
  simp [TreeSet.empty, Tree.inorder]

end ProgramLemmas

section Composite

variable {α : Type} [DecidableEq α] (cmp : α → α → Bool)

/-- The lockstep loop of `TreeSet::operator==` (lines 307-318) applied
to the two value sequences the iterators produce: advance both while
both are short of `end()`, failing on the first mismatch (`!=` on `T`);
at exit both iterators must be at the null sentinel. -/
def eqLoop : List α → List α → Bool
  | x :: xs, y :: ys => if x = y then eqLoop xs ys else false
  | [], [] => true
  | _, _ => false

/-- `TreeSet::operator==`. -/
def TreeSet.seteq (s rhs : TreeSet α) : Bool := eqLoop s.yield rhs.yield

/-- `TreeSet::plus` (lines 320-334): a new empty set, then `add` every
element of `this` in iteration order, then every element of `s`. -/
def TreeSet.plus (s other : TreeSet α) : TreeSet α :=
  addAll cmp (addAll cmp TreeSet.empty s.yield) other.yield

/-- `TreeSet::intersect` (lines 336-349): for every element of `this`
and every element of `s`, `add` the element of `this` on `==` match. -/
def TreeSet.intersect (s other : TreeSet α) : TreeSet α :=
  s.yield.foldl
    (fun ns x => other.yield.foldl
      (fun ns2 y => if x = y then (TreeSet.add cmp ns2 x).1 else ns2) ns)
    TreeSet.empty

/-- `TreeSet::minus` (lines 351-362): `add` every element of `this`
that `s.contains` rejects. -/
def TreeSet.minus (s other : TreeSet α) : TreeSet α :=
  s.yield.foldl
    (fun ns x => if TreeSet.contains cmp other x then ns
      else (TreeSet.add cmp ns x).1)
    TreeSet.empty

/-- The body of `operator<<` (lines 367-381): print the current value,
then a comma whenever the advanced iterator has not reached `end()`. -/
def renderLoop (toStr : α → String) : List α → String
  | [] => ""
  | x :: xs =>
    toStr x ++ (match xs with | [] => "" | _ :: _ => ",") ++
      renderLoop toStr xs

/-- `operator<<` for `TreeSet` (lines 364-381): `"["`, the loop over
the in-order iterator, `"]"`. -/
def TreeSet.render (toStr : α → String) (s : TreeSet α) : String :=
  "[" ++ renderLoop toStr s.yield ++ "]"

/-- The deep copy performed by the `node` copy constructor
(lines 383-395): fresh nodes with the same values and shape (the
null-argument early return is only reachable from call sites that
already guard against null links). -/
def deepCopy : Tree α → Tree α
  | Tree.nil => Tree.nil
  | Tree.node l x r => Tree.node (deepCopy l) x (deepCopy r)

/-- The `TreeSet` copy constructor (lines 243-252). -/
def TreeSet.copyConstruct (other : TreeSet α) : TreeSet α :=
  if other.size > 0 then ⟨deepCopy other.root, other.size⟩
  else ⟨Tree.nil, other.size⟩

/-- The copy-assignment operator (lines 254-271); `self` mirrors the
`this == &other` pointer test.  Yields the assigned-to object's new
state. -/
def TreeSet.copyAssign (dest other : TreeSet α) (self : Bool) : TreeSet α :=
  if self then dest
  else if other.size > 0 then ⟨deepCopy other.root, other.size⟩
  else ⟨Tree.nil, other.size⟩

/-- The move constructor (lines 273-277): it initializes `_root` and
`_size` from the source and never writes to the source object.  Yields
(destination, source-after-the-call). -/
def TreeSet.moveConstruct (other : TreeSet α) : TreeSet α × TreeSet α :=
  (⟨other.root, other.size⟩, other)

/-- The move-assignment operator (lines 279-295): after the
self-assignment test it copies `_size` and (for a non-empty source) the
`_root` link; the source object is never written to.  Yields
(destination, source-after-the-call). -/
def TreeSet.moveAssign (dest other : TreeSet α) (self : Bool) :
    TreeSet α × TreeSet α :=
  if self then (dest, other)
  else if other.size > 0 then (⟨other.root, other.size⟩, other)
  else (⟨Tree.nil, other.size⟩, other)

end Composite

section CompositeLemmas

variable {α : Type} [DecidableEq α] {cmp : α → α → Bool}

theorem eqLoop_iff : ∀ l₁ l₂ : List α, eqLoop l₁ l₂ = true ↔ l₁ = l₂ := by
  intro l₁
  induction l₁ with
  | nil =>
    intro l₂
    cases l₂ with
    | nil => simp [eqLoop]
    | cons y ys => simp [eqLoop]
  | cons x xs ih =>
    intro l₂
    cases l₂ with
    | nil => simp [eqLoop]
    | cons y ys =>
      by_cases hxy : x = y
      · rw [eqLoop, if_pos hxy]
        rw [ih ys]
        subst hxy
        simp
      · rw [eqLoop, if_neg hxy]
        simp [hxy]

theorem deepCopy_id : ∀ t : Tree α, deepCopy t = t := by
  intro t
  induction t with
  | nil => rfl
  | node l x r ihl ihr => rw [deepCopy, ihl, ihr]

/-- Straight-line join used to reason about `String.intercalate`. -/
def sjoin (s : String) : List String → String
  | [] => ""
  | b :: bs => s ++ b ++ sjoin s bs

theorem intercalate_go_spec (s : String) : ∀ (l : List String) (a : String),
    String.intercalate.go a s l = a ++ sjoin s l := by
  intro l
  induction l with
  | nil => intro a; simp [String.intercalate.go, sjoin]
  | cons b bs ih =>
    intro a
    rw [String.intercalate.go, ih, sjoin]
    simp [String.append_assoc]

theorem intercalate_cons (s a : String) (l : List String) (hl : l ≠ []) :
    String.intercalate s (a :: l) = a ++ s ++ String.intercalate s l := by
  cases l with
  | nil => exact absurd rfl hl
  | cons b bs =>
    rw [String.intercalate, String.intercalate, intercalate_go_spec,
      intercalate_go_spec, sjoin]
    simp [String.append_assoc]

/-- The comma loop of `operator<<` produces the comma-joined text. -/
theorem renderLoop_eq_intercalate (toStr : α → String) :
    ∀ l : List α, renderLoop toStr l = String.intercalate "," (l.map toStr) := by
  intro l
  induction l with
  | nil => rfl
  | cons x xs ih =>
    cases xs with
    | nil =>
      rw [renderLoop]
      simp [renderLoop, String.intercalate, String.intercalate.go,
        String.append_empty]
    | cons y ys =>
      rw [renderLoop, ih]
      rw [show (x :: y :: ys).map toStr = toStr x :: (y :: ys).map toStr
        from rfl]
      rw [intercalate_cons "," (toStr x) ((y :: ys).map toStr) (by simp)]

theorem plus_spec (hs : LtSpec cmp) (s other : TreeSet α) :
    Inv cmp (TreeSet.plus cmp s other) ∧
    (∀ y, y ∈ (TreeSet.plus cmp s other).root.inorder ↔
      y ∈ s.yield ∨ y ∈ other.yield) := by
  obtain ⟨hinv1, hmem1⟩ := addAll_spec hs s.yield (Inv_empty cmp)
  obtain ⟨hinv2, hmem2⟩ := addAll_spec hs other.yield hinv1
  refine ⟨hinv2, ?_⟩
  intro y
  rw [TreeSet.plus, hmem2 y, hmem1 y]
  simp [TreeSet.empty, Tree.inorder]

theorem intersect_inner_spec (hs : LtSpec cmp) (x : α) :
    ∀ (l : List α) {acc : TreeSet α}, Inv cmp acc →
    Inv cmp (l.foldl
      (fun ns2 y => if x = y then (TreeSet.add cmp ns2 x).1 else ns2) acc) ∧
    (∀ z, z ∈ (l.foldl
      (fun ns2 y => if x = y then (TreeSet.add cmp ns2 x).1 else ns2)
        acc).root.inorder ↔
      z ∈ acc.root.inorder ∨ (z = x ∧ x ∈ l)) := by
  intro l
  induction l with
  | nil =>
    intro acc hinv
    exact ⟨hinv, by intro z; simp⟩
  | cons y ys ih =>
    intro acc hinv
    by_cases hxy : x = y
    · obtain ⟨hinv2, _, hmem2, _⟩ := add_spec hs hinv x
      simp only [List.foldl_cons, if_pos hxy]
      obtain ⟨hinv3, hmem3⟩ := ih hinv2
      refine ⟨hinv3, ?_⟩
      intro z
      rw [hmem3 z, hmem2 z]
      have hxmem : x ∈ y :: ys := by rw [hxy]; exact List.mem_cons_self y ys
      constructor
      · rintro ((rfl | hz) | ⟨rfl, _⟩)
        · exact Or.inr ⟨rfl, hxmem⟩
        · exact Or.inl hz
        · exact Or.inr ⟨rfl, hxmem⟩
      · rintro (hz | ⟨rfl, _⟩)
        · exact Or.inl (Or.inr hz)
        · exact Or.inl (Or.inl rfl)
    · simp only [List.foldl_cons, if_neg hxy]
      obtain ⟨hinv3, hmem3⟩ := ih hinv
      refine ⟨hinv3, ?_⟩
      intro z
      rw [hmem3 z]
      have : (x ∈ y :: ys) ↔ x ∈ ys := by simp [List.mem_cons, hxy]
      rw [this]

theorem intersect_outer_spec (hs : LtSpec cmp) (m : List α) :
    ∀ (l : List α) {acc : TreeSet α}, Inv cmp acc →
    Inv cmp (l.foldl (fun ns x => m.foldl
      (fun ns2 y => if x = y then (TreeSet.add cmp ns2 x).1 else ns2) ns)
        acc) ∧
    (∀ z, z ∈ (l.foldl (fun ns x => m.foldl
      (fun ns2 y => if x = y then (TreeSet.add cmp ns2 x).1 else ns2) ns)
        acc).root.inorder ↔
      z ∈ acc.root.inorder ∨ (z ∈ l ∧ z ∈ m)) := by
  intro l
  induction l with
  | nil =>
    intro acc hinv
    exact ⟨hinv, by intro z; simp⟩
  | cons x xs ih =>
    intro acc hinv
    simp only [List.foldl_cons]
    obtain ⟨hinv2, hmem2⟩ := intersect_inner_spec hs x m hinv
    obtain ⟨hinv3, hmem3⟩ := ih hinv2
    refine ⟨hinv3, ?_⟩
    intro z
    rw [hmem3 z, hmem2 z]
    constructor
    · rintro ((hz | ⟨rfl, hm⟩) | ⟨hzxs, hzm⟩)
      · exact Or.inl hz
      · exact Or.inr ⟨List.mem_cons_self _ _, hm⟩
      · exact Or.inr ⟨List.mem_cons_of_mem _ hzxs, hzm⟩
    · rintro (hz | ⟨hzc, hzm⟩)
      · exact Or.inl (Or.inl hz)
      · rcases List.mem_cons.mp hzc with rfl | hzxs
        · exact Or.inl (Or.inr ⟨rfl, hzm⟩)
        · exact Or.inr ⟨hzxs, hzm⟩

theorem intersect_spec (hs : LtSpec cmp) (s other : TreeSet α) :
    Inv cmp (TreeSet.intersect cmp s other) ∧
    (∀ z, z ∈ (TreeSet.intersect cmp s other).root.inorder ↔
      z ∈ s.yield ∧ z ∈ other.yield) := by
  obtain ⟨hinv, hmem⟩ :=
    intersect_outer_spec hs other.yield s.yield (Inv_empty cmp)
  refine ⟨hinv, ?_⟩
  intro z
  rw [TreeSet.intersect, hmem z]
  simp [TreeSet.empty, Tree.inorder]

theorem minus_fold_spec (hs : LtSpec cmp) {other : TreeSet α}
    (hother : Inv cmp other) :
    ∀ (l : List α) {acc : TreeSet α}, Inv cmp acc →
    Inv cmp (l.foldl (fun ns x => if TreeSet.contains cmp other x then ns
      else (TreeSet.add cmp ns x).1) acc) ∧
    (∀ z, z ∈ (l.foldl (fun ns x => if TreeSet.contains cmp other x then ns
      else (TreeSet.add cmp ns x).1) acc).root.inorder ↔
      z ∈ acc.root.inorder ∨ (z ∈ l ∧ z ∉ other.root.inorder)) := by
  intro l
  induction l with
  | nil =>
    intro acc hinv
    exact ⟨hinv, by intro z; simp⟩
  | cons x xs ih =>
    intro acc hinv
    by_cases hc : TreeSet.contains cmp other x = true
    · have hxo : x ∈ other.root.inorder := (contains_iff hs hother x).mp hc
      simp only [List.foldl_cons, if_pos hc]
      obtain ⟨hinv3, hmem3⟩ := ih hinv
      refine ⟨hinv3, ?_⟩
      intro z
      rw [hmem3 z]
      constructor
      · rintro (hz | ⟨hzxs, hzn⟩)
        · exact Or.inl hz
        · exact Or.inr ⟨List.mem_cons_of_mem _ hzxs, hzn⟩
      · rintro (hz | ⟨hzc, hzn⟩)
        · exact Or.inl hz
        · rcases List.mem_cons.mp hzc with rfl | hzxs
          · exact absurd hxo hzn
          · exact Or.inr ⟨hzxs, hzn⟩
    · have hxo : x ∉ other.root.inorder := fun hm =>
        hc ((contains_iff hs hother x).mpr hm)
      have hcf : TreeSet.contains cmp other x = false := by
        cases h2 : TreeSet.contains cmp other x with
        | false => rfl
        | true => exact absurd h2 hc
      simp only [List.foldl_cons, hcf, Bool.false_eq_true, if_false]
      obtain ⟨hinv2, _, hmem2, _⟩ := add_spec hs hinv x
      obtain ⟨hinv3, hmem3⟩ := ih hinv2
      refine ⟨hinv3, ?_⟩
      intro z
      rw [hmem3 z, hmem2 z]
      constructor
      · rintro ((rfl | hz) | ⟨hzxs, hzn⟩)
        · exact Or.inr ⟨List.mem_cons_self _ _, hxo⟩
        · exact Or.inl hz
        · exact Or.inr ⟨List.mem_cons_of_mem _ hzxs, hzn⟩
      · rintro (hz | ⟨hzc, hzn⟩)
        · exact Or.inl (Or.inr hz)
        · rcases List.mem_cons.mp hzc with rfl | hzxs
          · exact Or.inl (Or.inl rfl)
          · exact Or.inr ⟨hzxs, hzn⟩

theorem minus_spec (hs : LtSpec cmp) {other : TreeSet α} (s : TreeSet α)
    (hother : Inv cmp other) :
    Inv cmp (TreeSet.minus cmp s other) ∧
    (∀ z, z ∈ (TreeSet.minus cmp s other).root.inorder ↔
      z ∈ s.yield ∧ z ∉ other.root.inorder) := by
  obtain ⟨hinv, hmem⟩ :=
    minus_fold_spec hs hother s.yield (Inv_empty cmp)
  refine ⟨hinv, ?_⟩
  intro z
  rw [TreeSet.minus, hmem z]
  simp [TreeSet.empty, Tree.inorder]

/-- Two invariant-satisfying sets with the same members compare equal
under `operator==`. -/
theorem seteq_of_same_mem (hs : LtSpec cmp) {s t : TreeSet α}
    (hsI : Inv cmp s) (htI : Inv cmp t)
    (hmem : ∀ y, y ∈ s.root.inorder ↔ y ∈ t.root.inorder) :
    TreeSet.seteq s t = true := by
  rw [TreeSet.seteq, eqLoop_iff, yield_eq_inorder, yield_eq_inorder]
  exact pairwise_ext hs (BST.pairwise hs hsI.1) (BST.pairwise hs htI.1) hmem

/-- A set whose members include another invariant set's members is at
least as large. -/
theorem size_le_of_subset (hs : LtSpec cmp) {s t : TreeSet α}
    (hsI : Inv cmp s) (htI : Inv cmp t)
    (hsub : ∀ y, y ∈ s.root.inorder → y ∈ t.root.inorder) :
    s.size ≤ t.size := by
  rw [hsI.2, htI.2]
  have hnd := pairwise_nodup hs (BST.pairwise hs hsI.1)
  have hsp := List.subperm_of_subset hnd (fun y hy => hsub y hy)
  exact_mod_cast hsp.length_le

end CompositeLemmas

/-- `std::less<int>` — the default (ascending) comparator. -/
def intLt (a b : Int) : Bool := decide (a < b)

/-- `std::greater<int>` — the descending comparator used in the tests. -/
def intGt (a b : Int) : Bool := decide (b < a)

theorem intLt_spec : LtSpec intLt := by
  constructor
  · intro a
    simp [intLt]
  · intro a b h
    simp [intLt] at h ⊢
    omega
  · intro a b c h1 h2
    simp [intLt] at h1 h2 ⊢
    omega
  · intro a b h
    simp [intLt]
    omega

theorem intGt_spec : LtSpec intGt := by
  constructor
  · intro a
    simp [intGt]
  · intro a b h
    simp [intGt] at h ⊢
    omega
  · intro a b c h1 h2
    simp [intGt] at h1 h2 ⊢
    omega
  · intro a b h
    simp [intGt]
    omega

section Helpers

variable {α : Type} [DecidableEq α] {cmp : α → α → Bool}

/-- Under the comparator contract, comparator-equivalence (neither
`cmp v e` nor `cmp e v`) coincides with `==`. -/
theorem equiv_iff_eq (hs : LtSpec cmp) (v e : α) :
    (cmp v e = false ∧ cmp e v = false) ↔ v = e := by
  constructor
  · rintro ⟨h1, h2⟩
    by_contra hne
    rcases hs.total v e hne with h | h
    · rw [h1] at h
      exact Bool.false_ne_true h
    · rw [h2] at h
      exact Bool.false_ne_true h
  · rintro rfl
    exact ⟨hs.irrefl v, hs.irrefl v⟩

theorem contains_eq_false_of_not_mem (hs : LtSpec cmp) {s : TreeSet α}
    (hinv : Inv cmp s) {v : α} (h : v ∉ s.root.inorder) :
    TreeSet.contains cmp s v = false := by
  cases hc : TreeSet.contains cmp s v with
  | false => rfl
  | true => exact absurd ((contains_iff hs hinv v).mp hc) h

end Helpers

/-- C1: BST ordering invariant — for every sequence of `add`/`del`
operations applied to a set starting empty, the in-order traversal the
iterator yields is strictly increasing under the active comparator,
with no duplicates.  (Every prefix of a sequence is itself such a
sequence, so this covers the state after every operation.) -/
theorem C1_bst_ordering_invariant {α : Type} [DecidableEq α]
    {cmp : α → α → Bool} (hs : LtSpec cmp) (ops : List (Op α)) :
    List.Chain' (fun a b => cmp a b = true) (applyOps cmp ops).yield ∧
    (applyOps cmp ops).yield.Nodup := by
  have hinv := Inv_applyOps hs ops
  have hp := BST.pairwise hs hinv.1
  rw [yield_eq_inorder]
  exact ⟨hp.chain', pairwise_nodup hs hp⟩

/-- Witness for C1 at a concrete operation sequence over `int` with
`std::less`. -/
theorem C1_witness :
    List.Chain' (fun a b => intLt a b = true)
      (applyOps intLt [Op.add 2, Op.add 1, Op.add 3, Op.del 2]).yield ∧
    (applyOps intLt [Op.add 2, Op.add 1, Op.add 3, Op.del 2]).yield.Nodup :=
  C1_bst_ordering_invariant intLt_spec [Op.add 2, Op.add 1, Op.add 3, Op.del 2]

/-- C2: add/contains duality with comparator-equivalence dedup — for an
invariant-satisfying set, `add(v)` returns true exactly when no
comparator-equivalent element (neither `cmp v e` nor `cmp e v`) is
present; it inserts `v` (the members afterward are the old members plus
`v`) and `contains(v)` is true afterward; when an equivalent element is
present it returns false and the state (contents and size) is
unchanged. -/
theorem C2_add_contains_duality {α : Type} [DecidableEq α]
    {cmp : α → α → Bool} (hs : LtSpec cmp) {s : TreeSet α}
    (hinv : Inv cmp s) (v : α) :
    ((TreeSet.add cmp s v).2 = true ↔
      ¬ ∃ e ∈ s.root.inorder, cmp v e = false ∧ cmp e v = false) ∧
    TreeSet.contains cmp (TreeSet.add cmp s v).1 v = true ∧
    v ∈ (TreeSet.add cmp s v).1.root.inorder ∧
    (∀ y, y ∈ (TreeSet.add cmp s v).1.root.inorder ↔
      y = v ∨ y ∈ s.root.inorder) ∧
    ((TreeSet.add cmp s v).2 = false → (TreeSet.add cmp s v).1 = s) := by
  obtain ⟨hinv2, hret, hmem, hunch, _⟩ := add_spec hs hinv v
  have hequiv : (∃ e ∈ s.root.inorder, cmp v e = false ∧ cmp e v = false) ↔
      v ∈ s.root.inorder := by
    constructor
    · rintro ⟨e, he, hcv⟩
      rw [(equiv_iff_eq hs v e).mp hcv]
      exact he
    · intro hv
      exact ⟨v, hv, (equiv_iff_eq hs v v).mpr rfl⟩
  have hvmem : v ∈ (TreeSet.add cmp s v).1.root.inorder :=
    (hmem v).mpr (Or.inl rfl)
  refine ⟨?_, ?_, hvmem, hmem, hunch⟩
  · rw [hret, hequiv]
  · exact (contains_iff hs hinv2 v).mpr hvmem

/-- Witness for C2 at the set `{1, 2}` and value `3` over `int` with
`std::less`. -/
theorem C2_witness :
    TreeSet.contains intLt
      (TreeSet.add intLt (TreeSet.ofList intLt [1, 2]) 3).1 3 = true ∧
    (3 : Int) ∈
      (TreeSet.add intLt (TreeSet.ofList intLt [1, 2]) 3).1.root.inorder :=
  ⟨(C2_add_contains_duality intLt_spec (Inv_ofList intLt_spec [1, 2]) 3).2.1,
   (C2_add_contains_duality intLt_spec
     (Inv_ofList intLt_spec [1, 2]) 3).2.2.1⟩

/-- C3: del/contains duality with atomicity on failure — `del(v)`
returns exactly what `contains(v)` answered immediately before the
call; on success `contains(v)` is false afterward and `_size` shrinks
by exactly one; on failure the whole state is unchanged. -/
theorem C3_del_contains_duality {α : Type} [DecidableEq α]
    {cmp : α → α → Bool} (hs : LtSpec cmp) {s : TreeSet α}
    (hinv : Inv cmp s) (v : α) :
    ((TreeSet.del cmp s v).2 = TreeSet.contains cmp s v) ∧
    ((TreeSet.del cmp s v).2 = true →
      TreeSet.contains cmp (TreeSet.del cmp s v).1 v = false ∧
      (TreeSet.del cmp s v).1.size = s.size - 1) ∧
    ((TreeSet.del cmp s v).2 = false → (TreeSet.del cmp s v).1 = s) := by
  obtain ⟨hinv2, hret, hmem, hsz, hunch⟩ := del_spec hs hinv v
  refine ⟨hret, ?_, hunch⟩
  intro htrue
  refine ⟨?_, hsz htrue⟩
  apply contains_eq_false_of_not_mem hs hinv2
  intro hv
  exact ((hmem v).mp hv).2 rfl

/-- Witness for C3 at the set `{1, 2}` and value `2` over `int` with
`std::less`. -/
theorem C3_witness :
    ((TreeSet.del intLt (TreeSet.ofList intLt [1, 2]) 2).2 =
      TreeSet.contains intLt (TreeSet.ofList intLt [1, 2]) 2) ∧
    TreeSet.contains intLt
      (TreeSet.del intLt (TreeSet.ofList intLt [1, 2]) 2).1 2 = false ∧
    (TreeSet.del intLt (TreeSet.ofList intLt [1, 2]) 2).1.size =
      (TreeSet.ofList intLt [1, 2]).size - 1 :=
  ⟨(C3_del_contains_duality intLt_spec (Inv_ofList intLt_spec [1, 2]) 2).1,
   (C3_del_contains_duality intLt_spec
     (Inv_ofList intLt_spec [1, 2]) 2).2.1 rfl⟩

/-- C4: size correctness — for every set reachable through the public
operations, `size()` equals the number of elements the iterator yields
from `begin()` to `end()`. -/
theorem C4_size_correctness {α : Type} [DecidableEq α]
    {cmp : α → α → Bool} (hs : LtSpec cmp) (ops : List (Op α)) :
    (applyOps cmp ops).size = ((applyOps cmp ops).yield.length : Int) := by
  have hinv := Inv_applyOps hs ops
  rw [yield_eq_inorder]
  exact hinv.2

/-- Witness for C4 at a concrete operation sequence over `int` with
`std::less`. -/
theorem C4_witness :
    (applyOps intLt [Op.add 5, Op.add 2, Op.del 5, Op.add 7]).size =
      ((applyOps intLt [Op.add 5, Op.add 2, Op.del 5, Op.add 7]).yield.length :
        Int) :=
  C4_size_correctness intLt_spec [Op.add 5, Op.add 2, Op.del 5, Op.add 7]

/-- C5 counterexample: move-constructing from the singleton set `{1}`
does not leave the source empty — the source keeps its size 1 and its
root node (the constructor reads `other._root`/`other._size` and never
writes to the source, so the two objects share the root). -/
theorem C5_counterexample :
    (TreeSet.moveConstruct (TreeSet.ofList intLt [1])).2.size = 1 ∧
    (TreeSet.moveConstruct (TreeSet.ofList intLt [1])).2.root ≠ Tree.nil ∧
    (TreeSet.moveConstruct (TreeSet.ofList intLt [1])).1.root =
      (TreeSet.moveConstruct (TreeSet.ofList intLt [1])).2.root := by
  refine ⟨rfl, ?_, rfl⟩
  intro h
  simp [TreeSet.moveConstruct, TreeSet.ofList, addAll, TreeSet.empty,
    TreeSet.add] at h

/-- C5 amended: move construction and move assignment copy the
source's root link and size into the destination (move assignment
resets the destination root to null when the source is empty); the
source object is left unchanged — still holding its root and size — so
afterward the destination holds the very same root reference as the
source instead of the source being emptied. -/
theorem C5_move_transfers_and_source_kept {α : Type} (d other : TreeSet α) :
    TreeSet.moveConstruct other =
      (⟨other.root, other.size⟩, other) ∧
    TreeSet.moveAssign d other false =
      (⟨if other.size > 0 then other.root else Tree.nil, other.size⟩,
        other) := by
  refine ⟨rfl, ?_⟩
  rw [TreeSet.moveAssign]
  by_cases h : other.size > 0
  · simp [h]
  · simp [h]

/-- C6: the claim is right about the intended behaviour and the code is
wrong: after `add(INT_MIN)` on an empty `TreeSet<int>` (a reachable,
correctly maintained one-node tree, as its in-order sequence shows),
the recursive checker started from the `std::numeric_limits<int>`
sentinels returns `false`, so the `assert(sanity_check(_root))` in
`add`/`del` fires on a valid tree: the null-subtree case returns
`_cmp(minval, maxval)`, and the narrowed interval
`(INT_MIN, INT_MIN)` below the new node is empty. -/
theorem C6_sanity_check_false_positive :
    (applyOps intLt [Op.add (-2147483648)]).root.inorder =
      [(-2147483648 : Int)] ∧
    List.Chain' (fun a b => intLt a b = true)
      (applyOps intLt [Op.add (-2147483648)]).root.inorder ∧
    sanity_check_root intLt (-2147483648) 2147483647
      (applyOps intLt [Op.add (-2147483648)]).root = false := by
  refine ⟨rfl, ?_, rfl⟩
  rw [show (applyOps intLt [Op.add (-2147483648)]).root.inorder =
    [(-2147483648 : Int)] from rfl]
  simp

/-- C7: order-insensitive equality — `operator==` is true exactly when
the two iterators' value sequences are element-wise equal and exhaust
simultaneously, and the sets built by inserting any two permutations of
the same values compare equal. -/
theorem C7_order_insensitive_equality {α : Type} [DecidableEq α]
    {cmp : α → α → Bool} (hs : LtSpec cmp) (l₁ l₂ : List α)
    (hperm : l₁.Perm l₂) :
    (∀ s t : TreeSet α, TreeSet.seteq s t = true ↔ s.yield = t.yield) ∧
    TreeSet.seteq (TreeSet.ofList cmp l₁) (TreeSet.ofList cmp l₂) = true := by
  refine ⟨?_, ?_⟩
  · intro s t
    rw [TreeSet.seteq, eqLoop_iff]
  · apply seteq_of_same_mem hs (Inv_ofList hs l₁) (Inv_ofList hs l₂)
    intro y
    rw [ofList_mem hs l₁ y, ofList_mem hs l₂ y]
    exact hperm.mem_iff

/-- Witness for C7 at two permutations of `{4, 1, 3}` over `int` with
`std::less`. -/
theorem C7_witness :
    TreeSet.seteq (TreeSet.ofList intLt [4, 1, 3])
      (TreeSet.ofList intLt [3, 4, 1]) = true :=
  (C7_order_insensitive_equality intLt_spec [4, 1, 3] [3, 4, 1]
    (by decide)).2

/-- C8: set-algebra identities for invariant-satisfying sets `A`, `B`:
`A.plus(A) == A`, `A.intersect(A) == A`, `A.minus(A)` is the empty set,
`A.plus(B).size() ≥ max(A.size(), B.size())`, and
`A.intersect(B).size() ≤ min(A.size(), B.size())`. -/
theorem C8_set_algebra {α : Type} [DecidableEq α] {cmp : α → α → Bool}
    (hs : LtSpec cmp) {A B : TreeSet α} (hA : Inv cmp A) (hB : Inv cmp B) :
    TreeSet.seteq (TreeSet.plus cmp A A) A = true ∧
    TreeSet.seteq (TreeSet.intersect cmp A A) A = true ∧
    (TreeSet.minus cmp A A).root = Tree.nil ∧
    (TreeSet.minus cmp A A).size = 0 ∧
    max A.size B.size ≤ (TreeSet.plus cmp A B).size ∧
    (TreeSet.intersect cmp A B).size ≤ min A.size B.size := by
  obtain ⟨hPinv, hPmem⟩ := plus_spec hs A A
  obtain ⟨hIinv, hImem⟩ := intersect_spec hs A A
  obtain ⟨hMinv, hMmem⟩ := minus_spec hs A hA
  obtain ⟨hPBinv, hPBmem⟩ := plus_spec hs A B
  obtain ⟨hIBinv, hIBmem⟩ := intersect_spec hs A B
  have hyA := yield_eq_inorder A
  have hyB := yield_eq_inorder B
  have hMnil : (TreeSet.minus cmp A A).root.inorder = [] := by
    rw [List.eq_nil_iff_forall_not_mem]
    intro z hz
    have := (hMmem z).mp hz
    rw [hyA] at this
    exact this.2 this.1
  refine ⟨?_, ?_, ?_, ?_, ?_, ?_⟩
  · apply seteq_of_same_mem hs hPinv hA
    intro y
    rw [hPmem y, hyA]
    tauto
  · apply seteq_of_same_mem hs hIinv hA
    intro y
    rw [hImem y, hyA]
    tauto
  · exact inorder_eq_nil.mp hMnil
  · rw [hMinv.2, hMnil]
    rfl
  · have h1 : A.size ≤ (TreeSet.plus cmp A B).size := by
      apply size_le_of_subset hs hA hPBinv
      intro y hy
      rw [hPBmem y, hyA]
      exact Or.inl hy
    have h2 : B.size ≤ (TreeSet.plus cmp A B).size := by
      apply size_le_of_subset hs hB hPBinv
      intro y hy
      rw [hPBmem y, hyB]
      exact Or.inr hy
    exact max_le h1 h2
  · have h1 : (TreeSet.intersect cmp A B).size ≤ A.size := by
      apply size_le_of_subset hs hIBinv hA
      intro y hy
      have := (hIBmem y).mp hy
      rw [hyA] at this
      exact this.1
    have h2 : (TreeSet.intersect cmp A B).size ≤ B.size := by
      apply size_le_of_subset hs hIBinv hB
      intro y hy
      have := (hIBmem y).mp hy
      rw [hyB] at this
      exact this.2
    exact le_min h1 h2

/-- Witness for C8 at `A = {1, 2, 3}`, `B = {1, 2, 4}` over `int` with
`std::less`. -/
theorem C8_witness :
    TreeSet.seteq (TreeSet.plus intLt (TreeSet.ofList intLt [1, 2, 3])
      (TreeSet.ofList intLt [1, 2, 3])) (TreeSet.ofList intLt [1, 2, 3]) =
        true ∧
    TreeSet.seteq (TreeSet.intersect intLt (TreeSet.ofList intLt [1, 2, 3])
      (TreeSet.ofList intLt [1, 2, 3])) (TreeSet.ofList intLt [1, 2, 3]) =
        true ∧
    (TreeSet.minus intLt (TreeSet.ofList intLt [1, 2, 3])
      (TreeSet.ofList intLt [1, 2, 3])).root = Tree.nil ∧
    (TreeSet.minus intLt (TreeSet.ofList intLt [1, 2, 3])
      (TreeSet.ofList intLt [1, 2, 3])).size = 0 ∧
    max (TreeSet.ofList intLt [1, 2, 3]).size
      (TreeSet.ofList intLt [1, 2, 4]).size ≤
      (TreeSet.plus intLt (TreeSet.ofList intLt [1, 2, 3])
        (TreeSet.ofList intLt [1, 2, 4])).size ∧
    (TreeSet.intersect intLt (TreeSet.ofList intLt [1, 2, 3])
      (TreeSet.ofList intLt [1, 2, 4])).size ≤
      min (TreeSet.ofList intLt [1, 2, 3]).size
        (TreeSet.ofList intLt [1, 2, 4]).size :=
  C8_set_algebra intLt_spec (Inv_ofList intLt_spec [1, 2, 3])
    (Inv_ofList intLt_spec [1, 2, 4])

/-- C9: rendering format — the stream output is exactly `"["`, the
iterator's values joined by single commas, then `"]"`, with no other
whitespace; the empty set renders as `"[]"`; inserting `[4,1,3,2]`
under the ascending comparator renders `"[1,2,3,4]"` and under the
descending comparator `"[4,3,2,1]"`. -/
theorem C9_render_format :
    (∀ s : TreeSet Int, TreeSet.render toString s =
      "[" ++ String.intercalate "," (s.yield.map toString) ++ "]") ∧
    TreeSet.render toString (TreeSet.empty (α := Int)) = "[]" ∧
    TreeSet.render toString (TreeSet.ofList intLt [4, 1, 3, 2]) =
      "[1,2,3,4]" ∧
    TreeSet.render toString (TreeSet.ofList intGt [4, 1, 3, 2]) =
      "[4,3,2,1]" := by
  refine ⟨?_, ?_, ?_, ?_⟩
  · intro s
    rw [TreeSet.render, renderLoop_eq_intercalate]
  · rw [TreeSet.render, yield_eq_inorder]
    rfl
  · rw [TreeSet.render, yield_eq_inorder]
    rfl
  · rw [TreeSet.render, yield_eq_inorder]
    rfl

/-- C10: self-assignment is a no-op — both `operator=` overloads test
`this == &other` first and return immediately, so copy-assigning and
move-assigning a set to itself leave its state (root and size)
unchanged. -/
theorem C10_self_assignment_noop {α : Type} [DecidableEq α]
    (s : TreeSet α) :
    TreeSet.copyAssign s s true = s ∧
    TreeSet.moveAssign s s true = (s, s) := by
  exact ⟨rfl, rfl⟩

end TreeSetSpec
